import Mathlib

/-!
Verification of the `fifo` bounded queue (the resizable ring buffer with a
`closed` flag).  The Go methods are embedded as pure functions on an explicit
state record: each mutating method returns the error value it produces together
with the post-state of the receiver (the receiver is returned unchanged on
every failure path, mirroring the in-place mutation of the Go code).  Go's
`cap(q.items)` always equals `len(q.items)` here, since every backing slice is
produced by `make([]T, n)` and never re-sliced, so the backing array is a plain
list and Go's `cap` is its length.  Blocking `Enqueue`/`Dequeue` are given
single-caller semantics: `none` means the call parks on the condition variable
with nobody left to wake it.
-/

namespace Fifo

/-- Error values of the package: `ErrQueueFull`, `ErrQueueEmpty`,
`ErrCapacityNotPositive`, `ErrQueueClosed`. -/
inductive Err
  | queueFull
  | queueEmpty
  | capacityNotPositive
  | queueClosed
deriving DecidableEq, Repr

/-- State of `Queue[T]`: backing slice, head/tail cursors, occupancy, declared
capacity and the closed flag (the two mutexes and the condition variable are
synchronization only and carry no state). -/
structure Queue (T : Type) where
  items : List T
  head : Nat
  tail : Nat
  len : Nat
  cap : Nat
  closed : Bool
deriving DecidableEq, Repr

/-- `New(initialCapacity)` for a positive capacity (the Go constructor panics
on a non-positive one, so non-positive arguments never produce a queue). -/
def new {T : Type} [Inhabited T] (c : Nat) : Queue T :=
  { items := List.replicate c default, head := 0, tail := 0, len := 0
    cap := c, closed := false }

/-- The successful write path shared by `TryEnqueue` and `Enqueue`:
`q.items[q.tail] = item; q.tail = (q.tail + 1) % cap(q.items); q.len++`. -/
def enqMut {T : Type} (x : T) (q : Queue T) : Option Err × Queue T :=
  (none,
    { q with
        items := q.items.set q.tail x
        tail := (q.tail + 1) % q.items.length
        len := q.len + 1 })

/-- `TryEnqueue(item)`. -/
def tryEnqueue {T : Type} (x : T) (q : Queue T) : Option Err × Queue T :=
  if q.closed then (some Err.queueClosed, q)
  else if q.cap ≤ q.len then (some Err.queueFull, q)
  else enqMut x q

/-- Blocking `Enqueue(item)`, single-caller semantics: `none` when the call
would wait forever (`len >= cap` and not closed on entry, nobody to wake it). -/
def enqueue {T : Type} (x : T) (q : Queue T) : Option (Option Err × Queue T) :=
  if q.cap ≤ q.len ∧ q.closed = false then none
  else if q.closed then some (some Err.queueClosed, q)
  else some (enqMut x q)

/-- The successful read path shared by `TryDequeue` and `Dequeue`: read
`q.items[q.head]`, clear the slot to the zero value, advance
`q.head = (q.head + 1) % cap(q.items)`, decrement `q.len`. -/
def deqMut {T : Type} [Inhabited T] (q : Queue T) : Except Err T × Queue T :=
  (Except.ok (q.items.getD q.head default),
    { q with
        items := q.items.set q.head default
        head := (q.head + 1) % q.items.length
        len := q.len - 1 })

/-- `TryDequeue()` (a Go error comes with the zero value of `T`, modelled by
the valueless `Except.error`). -/
def tryDequeue {T : Type} [Inhabited T] (q : Queue T) : Except Err T × Queue T :=
  if q.len = 0 then
    (if q.closed then Except.error Err.queueClosed else Except.error Err.queueEmpty, q)
  else deqMut q

/-- Blocking `Dequeue()`, single-caller semantics: `none` when the call would
wait forever (empty and open, nobody to wake it). -/
def dequeue {T : Type} [Inhabited T] (q : Queue T) : Option (Except Err T × Queue T) :=
  if q.len = 0 then
    if q.closed then some (Except.error Err.queueClosed, q) else none
  else some (deqMut q)

/-- Result of Go `copy(dst, src)`: the first `min |dst| |src|` slots of `dst`
are overwritten from `src`, the rest of `dst` is kept; the length of `dst` is
preserved. -/
def goCopy {T : Type} (dst src : List T) : List T :=
  src.take dst.length ++ dst.drop src.length

/-- The allocate-and-copy block of `Resize`: `newItems := make([]T, ns)`
followed by the two-branch copy (`copy(newItems, q.items[q.head:q.tail])`
when the occupied range is contiguous, the two-segment copy when it wraps),
returning the new backing slice. -/
def copyOut {T : Type} [Inhabited T] (q : Queue T) (ns : Nat) : List T :=
  let base := List.replicate ns (default : T)
  if q.len = 0 then base
  else if q.head < q.tail then
    goCopy base ((q.items.drop q.head).take (q.tail - q.head))
  else
    let src1 := q.items.drop q.head
    let m := min base.length src1.length
    let tmp := goCopy base src1
    tmp.take m ++ goCopy (tmp.drop m) (q.items.take q.tail)

/-- `Resize(newCap)`.  The argument is an `Int` because the Go method accepts
any machine integer and rejects non-positive ones.  Mirrors the source order:
no-op when `newCap == q.cap`, then the positivity check, then the closed
check, then allocation of `ns = max(newCap, q.len)` slots and the copy. -/
def resize {T : Type} [Inhabited T] (n : Int) (q : Queue T) : Option Err × Queue T :=
  if n = (q.cap : Int) then (none, q)
  else if n ≤ 0 then (some Err.capacityNotPositive, q)
  else if q.closed then (some Err.queueClosed, q)
  else
    let newCap := n.toNat
    let ns := if newCap < q.len then q.len else newCap
    (none,
      { items := copyOut q ns, head := 0, tail := q.len % ns, len := q.len
        cap := newCap, closed := q.closed })

/-- `Close()`. -/
def close {T : Type} (q : Queue T) : Option Err × Queue T :=
  if q.closed then (some Err.queueClosed, q)
  else (none, { q with closed := true })

/-- Logical contents of the queue in FIFO order: the `len` stored items
starting at `head`, wrapping around the backing array. -/
def toList {T : Type} (q : Queue T) : List T :=
  (q.items.drop q.head ++ q.items.take q.head).take q.len

/-- Structural well-formedness of a queue state: positive declared capacity,
the backing array at least as long as the declared capacity and the occupancy,
cursors within the backing array, and the ring relation between the cursors
and the occupancy. -/
def Wf {T : Type} (q : Queue T) : Prop :=
  1 ≤ q.cap ∧ q.cap ≤ q.items.length ∧ q.len ≤ q.items.length ∧
    q.head < q.items.length ∧ q.tail < q.items.length ∧
    q.tail = (q.head + q.len) % q.items.length

instance {T : Type} (q : Queue T) [DecidableEq T] : Decidable (Wf q) := by
  unfold Wf
  infer_instance

/-- States reachable from a freshly constructed queue by any sequence of
operations (both the try and the blocking variants, resize with any argument,
close). -/
inductive Reachable {T : Type} [Inhabited T] : Queue T → Prop
  | init (c : Nat) (hc : 1 ≤ c) : Reachable (new c)
  | stepTryEnq (x : T) (q : Queue T) : Reachable q → Reachable (tryEnqueue x q).2
  | stepEnq (x : T) (q : Queue T) (r : Option Err × Queue T) :
      Reachable q → enqueue x q = some r → Reachable r.2
  | stepTryDeq (q : Queue T) : Reachable q → Reachable (tryDequeue q).2
  | stepDeq (q : Queue T) (r : Except Err T × Queue T) :
      Reachable q → dequeue q = some r → Reachable r.2
  | stepResize (n : Int) (q : Queue T) : Reachable q → Reachable (resize n q).2
  | stepClose (q : Queue T) : Reachable q → Reachable (close q).2

/-- One enqueue, by the variant selected by the tag: `true` is the blocking
`Enqueue`, `false` is `TryEnqueue`. -/
def enqAs {T : Type} (b : Bool) (x : T) (q : Queue T) : Option (Option Err × Queue T) :=
  if b then enqueue x q else some (tryEnqueue x q)

/-- One dequeue, by the variant selected by the tag: `true` is the blocking
`Dequeue`, `false` is `TryDequeue`. -/
def deqAs {T : Type} [Inhabited T] (b : Bool) (q : Queue T) : Option (Except Err T × Queue T) :=
  if b then dequeue q else some (tryDequeue q)

/-- Run a sequence of enqueues (each tagged with its variant); `some` exactly
when every call returns without error and without blocking. -/
def runEnqs {T : Type} : List (Bool × T) → Queue T → Option (Queue T)
  | [], q => some q
  | (b, x) :: rest, q =>
    match enqAs b x q with
    | some (none, q') => runEnqs rest q'
    | _ => none

/-- Run a sequence of dequeues (each tagged with its variant), collecting the
returned items; `some` exactly when every call returns an item. -/
def runDeqs {T : Type} [Inhabited T] : List Bool → Queue T → Option (List T × Queue T)
  | [], q => some ([], q)
  | b :: rest, q =>
    match deqAs b q with
    | some (Except.ok a, q') =>
      match runDeqs rest q' with
      | some (as, qf) => some (a :: as, qf)
      | none => none
    | _ => none

/-- Cancellation of a common summand under a common modulus, for indices below
the modulus. -/
theorem add_mod_inj {N c a b : Nat} (ha : a < N) (hb : b < N)
    (h : (c + a) % N = (c + b) % N) : a = b := by
  have h2 : a ≡ b [MOD N] := Nat.ModEq.add_left_cancel' c h
  have h3 : a % N = b % N := h2
  rwa [Nat.mod_eq_of_lt ha, Nat.mod_eq_of_lt hb] at h3

/-- A fresh queue of positive capacity is well-formed. -/
theorem wf_new {T : Type} [Inhabited T] (c : Nat) (hc : 1 ≤ c) : Wf (new c : Queue T) := by
  unfold Wf new
  simp only [List.length_replicate]
  exact ⟨hc, le_refl _, Nat.zero_le _, by omega, by omega, by simp⟩

/-- A fresh queue is empty. -/
theorem toList_new {T : Type} [Inhabited T] (c : Nat) : toList (new c : Queue T) = [] := by
  unfold toList new
  simp

/-- The logical contents have exactly `len` items. -/
theorem toList_length {T : Type} (q : Queue T) (hh : q.head ≤ q.items.length)
    (hl : q.len ≤ q.items.length) : (toList q).length = q.len := by
  unfold toList
  simp only [List.length_take, List.length_append, List.length_drop, List.length_take]
  omega

/-- The `i`-th logical item lives at physical index `(head + i) % N`. -/
theorem toList_getElem {T : Type} (q : Queue T) (hh : q.head < q.items.length)
    (hl : q.len ≤ q.items.length) (i : Nat) (hi : i < q.len) :
    (toList q)[i]? = q.items[(q.head + i) % q.items.length]? := by
  unfold toList
  rw [List.getElem?_take, if_pos hi, List.getElem?_append]
  by_cases hc : i < (q.items.drop q.head).length
  · rw [if_pos hc, List.getElem?_drop]
    rw [List.length_drop] at hc
    rw [Nat.mod_eq_of_lt (by omega)]
  · rw [if_neg hc, List.getElem?_take]
    rw [List.length_drop] at hc
    push_neg at hc
    rw [List.length_drop]
    rw [if_pos (by omega)]
    have hrew : q.head + i = q.items.length + (i - (q.items.length - q.head)) := by omega
    rw [hrew, Nat.add_mod_left, Nat.mod_eq_of_lt (by omega)]

/-- Indices at or beyond `len` are outside the logical contents. -/
theorem toList_getElem_none {T : Type} (q : Queue T) (hh : q.head ≤ q.items.length)
    (hl : q.len ≤ q.items.length) (i : Nat) (hi : q.len ≤ i) : (toList q)[i]? = none := by
  apply List.getElem?_eq_none
  rw [toList_length q hh hl]
  exact hi

/-- The write path preserves well-formedness whenever a free slot exists. -/
theorem enqMut_wf {T : Type} (x : T) (q : Queue T) (hWf : Wf q)
    (hlt : q.len < q.items.length) : Wf (enqMut x q).2 := by
  obtain ⟨h1, h2, h3, h4, h5, h6⟩ := hWf
  unfold enqMut Wf
  simp only [List.length_set]
  refine ⟨h1, h2, by omega, h4, Nat.mod_lt _ (by omega), ?_⟩
  rw [h6, Nat.mod_add_mod, Nat.add_assoc]

/-- The write path appends the new item to the logical contents. -/
theorem enqMut_toList {T : Type} (x : T) (q : Queue T) (hWf : Wf q)
    (hlt : q.len < q.items.length) :
    toList (enqMut x q).2 = toList q ++ [x] := by
  obtain ⟨h1, h2, h3, h4, h5, h6⟩ := hWf
  have hlen : (toList q).length = q.len := toList_length q (by omega) h3
  apply List.ext_getElem?
  intro i
  rcases Nat.lt_trichotomy i q.len with hi | hi | hi
  · rw [toList_getElem (enqMut x q).2 (by simpa [enqMut] using h4)
      (by simp only [enqMut, List.length_set]; omega) i (by simp only [enqMut]; omega)]
    rw [List.getElem?_append, if_pos (by omega)]
    rw [toList_getElem q h4 h3 i hi]
    simp only [enqMut, List.length_set]
    rw [List.getElem?_set, if_neg ?_]
    intro hEq
    rw [h6] at hEq
    have : q.len = i := add_mod_inj (by omega) (by omega) hEq
    omega
  · rw [toList_getElem (enqMut x q).2 (by simpa [enqMut] using h4)
      (by simp only [enqMut, List.length_set]; omega) i (by simp only [enqMut]; omega)]
    simp only [enqMut, List.length_set]
    rw [hi, ← h6, List.getElem?_set, if_pos rfl, if_pos (by omega)]
    rw [List.getElem?_append, if_neg (by omega)]
    simp [hlen]
  · rw [toList_getElem_none (enqMut x q).2 (by simp only [enqMut, List.length_set]; omega)
      (by simp only [enqMut, List.length_set]; omega) i (by simp only [enqMut]; omega)]
    rw [List.getElem?_eq_none]
    simp only [List.length_append, hlen, List.length_cons, List.length_nil]
    omega

/-- The read path preserves well-formedness whenever the queue is non-empty. -/
theorem deqMut_wf {T : Type} [Inhabited T] (q : Queue T) (hWf : Wf q)
    (hpos : 0 < q.len) : Wf (deqMut q).2 := by
  obtain ⟨h1, h2, h3, h4, h5, h6⟩ := hWf
  unfold deqMut Wf
  simp only [List.length_set]
  refine ⟨h1, h2, by omega, Nat.mod_lt _ (by omega), h5, ?_⟩
  rw [Nat.mod_add_mod, h6]
  congr 1
  omega

/-- The read path returns the logical front item and keeps the rest. -/
theorem deqMut_toList {T : Type} [Inhabited T] (q : Queue T) (hWf : Wf q)
    (hpos : 0 < q.len) :
    toList q = q.items.getD q.head default :: toList (deqMut q).2 := by
  obtain ⟨h1, h2, h3, h4, h5, h6⟩ := hWf
  apply List.ext_getElem?
  intro i
  match i with
  | 0 =>
    rw [toList_getElem q h4 h3 0 hpos, Nat.add_zero, Nat.mod_eq_of_lt h4]
    rw [List.getElem?_cons_zero, List.getD_eq_getElem?_getD, List.getElem?_eq_getElem h4]
    rfl
  | i + 1 =>
    rw [List.getElem?_cons_succ]
    rcases Nat.lt_or_ge (i + 1) q.len with hi | hi
    · rw [toList_getElem q h4 h3 (i + 1) hi]
      rw [toList_getElem (deqMut q).2
        (by simp only [deqMut, List.length_set]; exact Nat.mod_lt _ (by omega))
        (by simp only [deqMut, List.length_set]; omega) i (by simp only [deqMut]; omega)]
      simp only [deqMut, List.length_set]
      rw [Nat.mod_add_mod, List.getElem?_set, if_neg ?_]
      · have hidx : q.head + (i + 1) = q.head + 1 + i := by omega
        rw [hidx]
      · intro hEq
        have hq : (q.head + 0) % q.items.length = (q.head + (1 + i)) % q.items.length := by
          rw [Nat.add_zero, Nat.mod_eq_of_lt h4, hEq]
          congr 1
          omega
        have : (0 : Nat) = 1 + i := add_mod_inj (by omega) (by omega) hq
        omega
    · rw [toList_getElem_none q (by omega) h3 (i + 1) hi]
      rw [toList_getElem_none (deqMut q).2
        (by simp only [deqMut, List.length_set]; exact le_of_lt (Nat.mod_lt _ (by omega)))
        (by simp only [deqMut, List.length_set]; omega) i (by simp only [deqMut]; omega)]

/-- `TryEnqueue` on a closed queue fails with `QueueClosed`, state unchanged. -/
theorem tryEnqueue_closed {T : Type} (x : T) (q : Queue T) (hcl : q.closed = true) :
    tryEnqueue x q = (some Err.queueClosed, q) := by
  unfold tryEnqueue
  rw [hcl]
  simp

/-- `TryEnqueue` on an open queue with `len >= cap` fails with `QueueFull`,
state unchanged. -/
theorem tryEnqueue_full {T : Type} (x : T) (q : Queue T) (hcl : q.closed = false)
    (hfull : q.cap ≤ q.len) : tryEnqueue x q = (some Err.queueFull, q) := by
  unfold tryEnqueue
  rw [hcl]
  simp [hfull]

/-- `TryEnqueue` on an open, non-full queue takes the write path. -/
theorem tryEnqueue_go {T : Type} (x : T) (q : Queue T) (hcl : q.closed = false)
    (hlt : q.len < q.cap) : tryEnqueue x q = enqMut x q := by
  unfold tryEnqueue
  rw [hcl]
  simp [Nat.not_le.mpr hlt]

/-- `TryDequeue` on an empty queue fails (`QueueClosed` when closed,
`QueueEmpty` otherwise), state unchanged. -/
theorem tryDequeue_empty {T : Type} [Inhabited T] (q : Queue T) (h0 : q.len = 0) :
    tryDequeue q =
      (if q.closed then Except.error Err.queueClosed else Except.error Err.queueEmpty, q) := by
  unfold tryDequeue
  simp [h0]

/-- `TryDequeue` on a non-empty queue takes the read path. -/
theorem tryDequeue_go {T : Type} [Inhabited T] (q : Queue T) (hpos : 0 < q.len) :
    tryDequeue q = deqMut q := by
  unfold tryDequeue
  simp [Nat.pos_iff_ne_zero.mp hpos]

/-- Whenever the blocking `Enqueue` does not park, it behaves exactly like
`TryEnqueue`. -/
theorem enqueue_eq {T : Type} (x : T) (q : Queue T) :
    enqueue x q =
      if q.cap ≤ q.len ∧ q.closed = false then none else some (tryEnqueue x q) := by
  unfold enqueue tryEnqueue
  cases hcl : q.closed with
  | false =>
    by_cases hle : q.cap ≤ q.len
    · simp [hcl, hle]
    · simp [hcl, hle]
  | true => simp [hcl]

/-- Whenever the blocking `Dequeue` does not park, it behaves exactly like
`TryDequeue`. -/
theorem dequeue_eq {T : Type} [Inhabited T] (q : Queue T) :
    dequeue q =
      if q.len = 0 ∧ q.closed = false then none else some (tryDequeue q) := by
  unfold dequeue tryDequeue
  cases hcl : q.closed with
  | false =>
    by_cases h0 : q.len = 0
    · simp [hcl, h0]
    · simp [hcl, h0]
  | true =>
    by_cases h0 : q.len = 0
    · simp [hcl, h0]
    · simp [hcl, h0]

/-- `Close` on an open queue succeeds and only flips the flag. -/
theorem close_open {T : Type} (q : Queue T) (hcl : q.closed = false) :
    close q = (none, { q with closed := true }) := by
  unfold close
  rw [hcl]
  simp

/-- `Close` on a closed queue fails with `QueueClosed`, state unchanged. -/
theorem close_closed {T : Type} (q : Queue T) (hcl : q.closed = true) :
    close q = (some Err.queueClosed, q) := by
  unfold close
  rw [hcl]
  simp

/-- Go `copy` never changes the destination length. -/
theorem goCopy_length {T : Type} (dst src : List T) :
    (goCopy dst src).length = dst.length := by
  simp [goCopy]
  omega

/-- Go `copy` from a source that fits: the source followed by the kept suffix
of the destination. -/
theorem goCopy_of_le {T : Type} (dst src : List T) (h : src.length ≤ dst.length) :
    goCopy dst src = src ++ dst.drop src.length := by
  unfold goCopy
  rw [List.take_of_length_le h]

/-- The copy block always allocates exactly `ns` slots. -/
theorem copyOut_length {T : Type} [Inhabited T] (q : Queue T) (ns : Nat) :
    (copyOut q ns).length = ns := by
  unfold copyOut
  by_cases h0 : q.len = 0
  · simp [h0]
  · rw [if_neg h0]
    by_cases hht : q.head < q.tail
    · rw [if_pos hht, goCopy_length]
      simp
    · rw [if_neg hht]
      simp only [List.length_append, List.length_take, goCopy_length, List.length_drop,
        goCopy_length, List.length_replicate]
      omega

/-- The first `len` slots of the copied backing array are exactly the logical
contents, for any allocation of at least `len` slots. -/
theorem copyOut_take {T : Type} [Inhabited T] (q : Queue T) (ns : Nat) (hWf : Wf q)
    (hns : q.len ≤ ns) : (copyOut q ns).take q.len = toList q := by
  obtain ⟨h1, h2, h3, h4, h5, h6⟩ := hWf
  unfold copyOut
  by_cases h0 : q.len = 0
  · simp [h0, toList]
  · rw [if_neg h0]
    by_cases hht : q.head < q.tail
    · rw [if_pos hht]
      have ht : q.tail = q.head + q.len ∧ q.head + q.len < q.items.length := by
        rcases Nat.lt_or_ge (q.head + q.len) q.items.length with hc | hc
        · rw [Nat.mod_eq_of_lt hc] at h6
          exact ⟨h6, hc⟩
        · exfalso
          rw [Nat.mod_eq_sub_mod hc, Nat.mod_eq_of_lt (by omega)] at h6
          omega
      obtain ⟨ht1, ht2⟩ := ht
      have hsrc : (q.items.drop q.head).take (q.tail - q.head)
          = (q.items.drop q.head).take q.len := by
        rw [ht1]
        congr 1
        omega
      rw [hsrc]
      have hsl : ((q.items.drop q.head).take q.len).length = q.len := by
        simp only [List.length_take, List.length_drop]
        omega
      rw [goCopy_of_le _ _ (by rw [hsl]; simp only [List.length_replicate]; omega)]
      rw [List.take_append_of_le_length (by rw [hsl]), List.take_of_length_le (by rw [hsl])]
      unfold toList
      rw [List.take_append_of_le_length (by simp only [List.length_drop]; omega)]
    · rw [if_neg hht]
      dsimp only
      have hL : q.items.length ≤ q.head + q.len ∧
          q.tail = q.head + q.len - q.items.length := by
        rcases Nat.lt_or_ge (q.head + q.len) q.items.length with hc | hc
        · exfalso
          rw [Nat.mod_eq_of_lt hc] at h6
          omega
        · rw [Nat.mod_eq_sub_mod hc, Nat.mod_eq_of_lt (by omega)] at h6
          exact ⟨hc, h6⟩
      obtain ⟨hge, ht⟩ := hL
      have hsrc1len : (q.items.drop q.head).length = q.items.length - q.head := by
        simp only [List.length_drop]
      have htklen : (q.items.take q.tail).length = q.tail := by
        simp only [List.length_take]
        omega
      have hm : min (List.replicate ns (default : T)).length (q.items.drop q.head).length
          = q.items.length - q.head := by
        simp only [List.length_replicate, List.length_drop]
        omega
      have htoList : toList q = q.items.drop q.head ++ q.items.take q.tail := by
        unfold toList
        rw [List.take_append_eq_append_take]
        rw [List.take_of_length_le (by rw [hsrc1len]; omega)]
        congr 1
        rw [List.take_take]
        congr 1
        rw [hsrc1len]
        omega
      rw [hm]
      rw [goCopy_of_le _ _ (by simp only [List.length_replicate, List.length_drop]; omega)]
      rw [hsrc1len]
      rw [List.take_left' hsrc1len, List.drop_left' hsrc1len]
      rw [List.drop_replicate]
      rw [goCopy_of_le _ _ (by simp only [List.length_replicate, List.length_take]; omega)]
      rw [htklen, List.drop_replicate]
      rw [List.take_append_eq_append_take]
      rw [List.take_of_length_le (by rw [hsrc1len]; omega)]
      rw [hsrc1len]
      rw [List.take_append_of_le_length (by rw [htklen]; omega)]
      rw [List.take_of_length_le (by rw [htklen]; omega)]
      rw [htoList]

/-- `Resize` to the current capacity is a successful no-op (checked before
the positivity and closed checks). -/
theorem resize_same {T : Type} [Inhabited T] (n : Int) (q : Queue T)
    (h : n = (q.cap : Int)) : resize n q = (none, q) := by
  unfold resize
  simp [h]

/-- `Resize` to a non-positive capacity other than the current one fails with
`CapacityNotPositive`, state unchanged. -/
theorem resize_nonpos {T : Type} [Inhabited T] (n : Int) (q : Queue T)
    (hne : n ≠ (q.cap : Int)) (h : n ≤ 0) :
    resize n q = (some Err.capacityNotPositive, q) := by
  unfold resize
  simp [hne, h]

/-- `Resize` to a positive capacity other than the current one on a closed
queue fails with `QueueClosed`, state unchanged. -/
theorem resize_closed {T : Type} [Inhabited T] (n : Int) (q : Queue T)
    (hne : n ≠ (q.cap : Int)) (hpos : 0 < n) (hcl : q.closed = true) :
    resize n q = (some Err.queueClosed, q) := by
  unfold resize
  rw [if_neg hne, if_neg (by omega), hcl]
  simp

/-- Successful `Resize` on an open queue: no error, the result is well-formed,
the logical contents, occupancy and closed flag are preserved, and the
declared capacity becomes the request. -/
theorem resize_ok {T : Type} [Inhabited T] (n : Int) (q : Queue T) (hWf : Wf q)
    (hcl : q.closed = false) (hpos : 0 < n) :
    (resize n q).1 = none ∧ Wf (resize n q).2 ∧ toList (resize n q).2 = toList q ∧
      (resize n q).2.len = q.len ∧ (resize n q).2.cap = n.toNat ∧
      (resize n q).2.closed = q.closed := by
  by_cases hne : n = (q.cap : Int)
  · rw [resize_same n q hne]
    refine ⟨rfl, hWf, rfl, rfl, ?_, rfl⟩
    show q.cap = n.toNat
    rw [hne]
    omega
  · have hred : resize n q =
        (none,
          { items := copyOut q (if n.toNat < q.len then q.len else n.toNat), head := 0
            tail := q.len % (if n.toNat < q.len then q.len else n.toNat), len := q.len
            cap := n.toNat, closed := q.closed }) := by
      unfold resize
      rw [if_neg hne, if_neg (by omega), hcl]
      simp
    obtain ⟨h1, h2, h3, h4, h5, h6⟩ := hWf
    have hns : q.len ≤ (if n.toNat < q.len then q.len else n.toNat) := by
      split <;> omega
    have hns1 : 1 ≤ (if n.toNat < q.len then q.len else n.toNat) := by
      split <;> omega
    have hcap : n.toNat ≤ (if n.toNat < q.len then q.len else n.toNat) := by
      split <;> omega
    rw [hred]
    refine ⟨rfl, ?_, ?_, rfl, rfl, rfl⟩
    · unfold Wf
      dsimp only
      rw [copyOut_length]
      exact ⟨by omega, hcap, hns, by omega, Nat.mod_lt _ (by omega), by rw [Nat.zero_add]⟩
    · unfold toList
      simp only [List.drop_zero, List.take_zero, List.append_nil]
      exact copyOut_take q _ ⟨h1, h2, h3, h4, h5, h6⟩ hns

/-- `TryEnqueue` preserves well-formedness (every branch). -/
theorem wf_tryEnqueue {T : Type} (x : T) (q : Queue T) (h : Wf q) :
    Wf (tryEnqueue x q).2 := by
  cases hcl : q.closed with
  | false =>
    by_cases hle : q.cap ≤ q.len
    · rw [tryEnqueue_full x q hcl hle]
      exact h
    · rw [tryEnqueue_go x q hcl (by omega)]
      exact enqMut_wf x q h (by have h2 := h.2.1; omega)
  | true =>
    rw [tryEnqueue_closed x q hcl]
    exact h

/-- `TryDequeue` preserves well-formedness (every branch). -/
theorem wf_tryDequeue {T : Type} [Inhabited T] (q : Queue T) (h : Wf q) :
    Wf (tryDequeue q).2 := by
  by_cases h0 : q.len = 0
  · rw [tryDequeue_empty q h0]
    exact h
  · rw [tryDequeue_go q (by omega)]
    exact deqMut_wf q h (by omega)

/-- `Resize` preserves well-formedness (every branch, any argument). -/
theorem wf_resize {T : Type} [Inhabited T] (n : Int) (q : Queue T) (h : Wf q) :
    Wf (resize n q).2 := by
  by_cases hne : n = (q.cap : Int)
  · rw [resize_same n q hne]
    exact h
  · by_cases hle : n ≤ 0
    · rw [resize_nonpos n q hne hle]
      exact h
    · cases hcl : q.closed with
      | false => exact (resize_ok n q h hcl (by omega)).2.1
      | true =>
        rw [resize_closed n q hne (by omega) hcl]
        exact h

/-- `Close` preserves well-formedness. -/
theorem wf_close {T : Type} (q : Queue T) (h : Wf q) : Wf (close q).2 := by
  cases hcl : q.closed with
  | false =>
    rw [close_open q hcl]
    exact h
  | true =>
    rw [close_closed q hcl]
    exact h

/-- Every reachable state is well-formed. -/
theorem reachable_wf {T : Type} [Inhabited T] {q : Queue T} (h : Reachable q) : Wf q := by
  induction h with
  | init c hc => exact wf_new c hc
  | stepTryEnq x q hq ih => exact wf_tryEnqueue x q ih
  | stepEnq x q r hq he ih =>
    rw [enqueue_eq] at he
    by_cases hb : q.cap ≤ q.len ∧ q.closed = false
    · rw [if_pos hb] at he
      cases he
    · rw [if_neg hb] at he
      have hr : r = tryEnqueue x q := by
        injection he with h2
        exact h2.symm
      rw [hr]
      exact wf_tryEnqueue x q ih
  | stepTryDeq q hq ih => exact wf_tryDequeue q ih
  | stepDeq q r hq he ih =>
    rw [dequeue_eq] at he
    by_cases hb : q.len = 0 ∧ q.closed = false
    · rw [if_pos hb] at he
      cases he
    · rw [if_neg hb] at he
      have hr : r = tryDequeue q := by
        injection he with h2
        exact h2.symm
      rw [hr]
      exact wf_tryDequeue q ih
  | stepResize n q hq ih => exact wf_resize n q ih
  | stepClose q hq ih => exact wf_close q ih

/-- Contents length under well-formedness. -/
theorem toList_len {T : Type} (q : Queue T) (hWf : Wf q) : (toList q).length = q.len :=
  toList_length q (le_of_lt hWf.2.2.2.1) hWf.2.2.1

/-- Any mix of successful enqueues (either variant) on an open queue with room
for all of them appends exactly those items, in order. -/
theorem runEnqs_spec {T : Type} (ops : List (Bool × T)) (q : Queue T) (hWf : Wf q)
    (hcl : q.closed = false) (hroom : q.len + ops.length ≤ q.cap) :
    ∃ q', runEnqs ops q = some q' ∧ Wf q' ∧
      toList q' = toList q ++ ops.map Prod.snd ∧
      q'.len = q.len + ops.length ∧ q'.cap = q.cap ∧ q'.closed = false := by
  induction ops generalizing q with
  | nil => exact ⟨q, rfl, hWf, by simp, by simp, rfl, hcl⟩
  | cons p rest ih =>
    obtain ⟨b, x⟩ := p
    have hlt : q.len < q.cap := by
      simp only [List.length_cons] at hroom
      omega
    have htr : tryEnqueue x q = (none, (enqMut x q).2) := tryEnqueue_go x q hcl hlt
    have henq : enqAs b x q = some (none, (enqMut x q).2) := by
      cases b with
      | false =>
        simp only [enqAs, if_neg Bool.false_ne_true]
        rw [htr]
      | true =>
        simp only [enqAs, if_pos rfl]
        rw [enqueue_eq, if_neg (fun hAnd : q.cap ≤ q.len ∧ q.closed = false => absurd hAnd.1 (by omega)), htr]
        simp
    have hN : q.len < q.items.length := by
      have h2 := hWf.2.1
      omega
    obtain ⟨q', hrun, hwf', htl', hlen', hcap', hcl'⟩ :=
      ih (enqMut x q).2 (enqMut_wf x q hWf hN) hcl (by
        show (enqMut x q).2.len + rest.length ≤ (enqMut x q).2.cap
        simp only [enqMut]
        simp only [List.length_cons] at hroom
        omega)
    refine ⟨q', ?_, hwf', ?_, ?_, ?_, hcl'⟩
    · simp only [runEnqs, henq]
      exact hrun
    · rw [htl', enqMut_toList x q hWf hN]
      simp
    · rw [hlen']
      simp only [enqMut, List.length_cons]
      omega
    · rw [hcap']
      simp only [enqMut]

/-- Any mix of dequeues (either variant) not exceeding the occupancy returns
the logical prefix of that length, in order, leaving the suffix. -/
theorem runDeqs_spec {T : Type} [Inhabited T] (ds : List Bool) (q : Queue T) (hWf : Wf q)
    (hlen : ds.length ≤ q.len) :
    ∃ qf, runDeqs ds q = some ((toList q).take ds.length, qf) ∧ Wf qf ∧
      qf.len = q.len - ds.length ∧ qf.cap = q.cap ∧ qf.closed = q.closed ∧
      qf.items.length = q.items.length ∧
      toList qf = (toList q).drop ds.length := by
  induction ds generalizing q with
  | nil => exact ⟨q, by simp [runDeqs], hWf, by simp, rfl, rfl, rfl, by simp⟩
  | cons b rest ih =>
    have hpos : 0 < q.len := by
      simp only [List.length_cons] at hlen
      omega
    have htr : tryDequeue q =
        (Except.ok (q.items.getD q.head default), (deqMut q).2) := tryDequeue_go q hpos
    have hdeq : deqAs b q =
        some (Except.ok (q.items.getD q.head default), (deqMut q).2) := by
      cases b with
      | false =>
        simp only [deqAs, if_neg Bool.false_ne_true]
        rw [htr]
      | true =>
        simp only [deqAs, if_pos rfl]
        rw [dequeue_eq, if_neg (fun hAnd : q.len = 0 ∧ q.closed = false => absurd hAnd.1 (by omega)), htr]
        simp
    obtain ⟨qf, hrun, hwf', hlen', hcap', hcl', hN', htl'⟩ :=
      ih (deqMut q).2 (deqMut_wf q hWf hpos) (by
        show rest.length ≤ (deqMut q).2.len
        simp only [deqMut]
        simp only [List.length_cons] at hlen
        omega)
    have hcons : toList q = q.items.getD q.head default :: toList (deqMut q).2 :=
      deqMut_toList q hWf hpos
    refine ⟨qf, ?_, hwf', ?_, ?_, ?_, ?_, ?_⟩
    · simp only [runDeqs, hdeq, hrun]
      rw [hcons]
      simp
    · rw [hlen']
      simp only [deqMut, List.length_cons]
      omega
    · rw [hcap']
      simp only [deqMut]
    · rw [hcl']
      simp only [deqMut]
    · rw [hN']
      simp only [deqMut, List.length_set]
    · rw [htl', hcons]
      simp

/-- C1: Strict FIFO order: every sequence of successful enqueues (`TryEnqueue`
or `Enqueue`, in any mix) on a fresh open queue, whose number does not exceed
the capacity, is returned by the subsequent sequence of dequeues (`TryDequeue`
or `Dequeue`, in any mix) as exactly those items, in exactly the order they
were enqueued. -/
theorem c1_fifo_order {T : Type} [Inhabited T] (c : Nat) (hc : 1 ≤ c)
    (ops : List (Bool × T)) (hlen : ops.length ≤ c) (ds : List Bool)
    (hds : ds.length = ops.length) :
    ∃ q' qf, runEnqs ops (new c) = some q' ∧
      runDeqs ds q' = some (ops.map Prod.snd, qf) := by
  obtain ⟨q', hrun, hwf', htl', hlen', hcap', hcl'⟩ :=
    runEnqs_spec ops (new c) (wf_new c hc) rfl (by
      show (new c : Queue T).len + ops.length ≤ (new c : Queue T).cap
      simp only [new]
      omega)
  have hlen'' : q'.len = ops.length := by
    rw [hlen']
    simp [new]
  obtain ⟨qf, hdeq, _, _, _, _, _, _⟩ :=
    runDeqs_spec ds q' hwf' (by omega)
  refine ⟨q', qf, hrun, ?_⟩
  rw [hdeq, htl', toList_new]
  have : (([] : List T) ++ ops.map Prod.snd).take ds.length = ops.map Prod.snd := by
    rw [List.nil_append, List.take_of_length_le]
    rw [List.length_map]
    omega
  rw [this]

/-- C1 witness: capacity 2, try-enqueue 5 then blocking-enqueue 6; a blocking
dequeue then a try dequeue return [5, 6]. -/
theorem c1_fifo_order_witness :
    ∃ q' qf, runEnqs [(false, 5), (true, 6)] (new 2 : Queue Nat) = some q' ∧
      runDeqs [true, false] q' = some ([5, 6], qf) :=
  c1_fifo_order 2 (by decide) [(false, 5), (true, 6)] (by decide) [true, false] (by decide)

/-- C2: on every well-formed open queue state (wrapped or not), a successful
`Resize` preserves the stored items and the sequence any mix of dequeues will
later produce, leaves `Len()` unchanged, and makes `Cap()` return the
requested capacity. -/
theorem c2_resize_preserves {T : Type} [Inhabited T] (q : Queue T) (hWf : Wf q)
    (hcl : q.closed = false) (n : Int) (hok : (resize n q).1 = none) :
    toList (resize n q).2 = toList q ∧
      (resize n q).2.len = q.len ∧
      ((resize n q).2.cap : Int) = n ∧
      ∀ ds : List Bool, ds.length ≤ q.len →
        (runDeqs ds (resize n q).2).map Prod.fst = (runDeqs ds q).map Prod.fst := by
  have hpos : 0 < n ∨ n = (q.cap : Int) := by
    by_cases hne : n = (q.cap : Int)
    · exact Or.inr hne
    · by_cases hle : n ≤ 0
      · rw [resize_nonpos n q hne hle] at hok
        cases hok
      · exact Or.inl (by omega)
  have hmain : toList (resize n q).2 = toList q ∧ (resize n q).2.len = q.len ∧
      ((resize n q).2.cap : Int) = n ∧ Wf (resize n q).2 := by
    rcases hpos with hp | hsame
    · obtain ⟨-, hwf, htl, hl, hcap, -⟩ := resize_ok n q hWf hcl hp
      refine ⟨htl, hl, ?_, hwf⟩
      rw [hcap]
      omega
    · rw [resize_same n q hsame]
      exact ⟨rfl, rfl, by rw [hsame], hWf⟩
  obtain ⟨htl, hl, hcap, hwf⟩ := hmain
  refine ⟨htl, hl, hcap, ?_⟩
  intro ds hds
  obtain ⟨qf1, hr1, -, -, -, -, -, -⟩ := runDeqs_spec ds (resize n q).2 hwf (by omega)
  obtain ⟨qf2, hr2, -, -, -, -, -, -⟩ := runDeqs_spec ds q hWf hds
  rw [hr1, hr2, htl]
  simp

/-- C2 witness: one item in a capacity-3 queue, resized to capacity 5. -/
theorem c2_resize_preserves_witness :
    toList (resize 5 (tryEnqueue 1 (new 3 : Queue Nat)).2).2
        = toList (tryEnqueue 1 (new 3 : Queue Nat)).2 ∧
      (resize 5 (tryEnqueue 1 (new 3 : Queue Nat)).2).2.len
        = (tryEnqueue 1 (new 3 : Queue Nat)).2.len ∧
      ((resize 5 (tryEnqueue 1 (new 3 : Queue Nat)).2).2.cap : Int) = 5 ∧
      ∀ ds : List Bool, ds.length ≤ (tryEnqueue 1 (new 3 : Queue Nat)).2.len →
        (runDeqs ds (resize 5 (tryEnqueue 1 (new 3 : Queue Nat)).2).2).map Prod.fst
          = (runDeqs ds (tryEnqueue 1 (new 3 : Queue Nat)).2).map Prod.fst :=
  c2_resize_preserves (tryEnqueue 1 (new 3 : Queue Nat)).2 (by decide) (by decide) 5
    (by decide)

/-- C3 counterexample: on a closed queue, `Resize` to the current capacity
(here 1) does not fail with `QueueClosed` — the equal-capacity no-op check
runs before the closed check and the call succeeds. -/
theorem c3_counterexample :
    ¬ ((resize 1 (close (new 1 : Queue Nat)).2).1 = some Err.queueClosed) := by
  decide

/-- C3 amended: once the queue is closed, every `Resize` leaves the state
unchanged, but the result depends on the argument: success (no error) when
`newCapacity` equals the current capacity, `CapacityNotPositive` when
`newCapacity <= 0`, and `QueueClosed` only otherwise. -/
theorem c3_resize_closed_amended {T : Type} [Inhabited T] (n : Int) (q : Queue T)
    (hcl : q.closed = true) :
    resize n q =
      (if n = (q.cap : Int) then none
       else if n ≤ 0 then some Err.capacityNotPositive
       else some Err.queueClosed, q) := by
  by_cases hne : n = (q.cap : Int)
  · rw [resize_same n q hne, if_pos hne]
  · rw [if_neg hne]
    by_cases hle : n ≤ 0
    · rw [resize_nonpos n q hne hle, if_pos hle]
    · rw [resize_closed n q hne (by omega) hcl, if_neg hle]

/-- C3 amended witness: `Resize(2)` on a closed capacity-1 queue fails with
`QueueClosed` and leaves the state unchanged. -/
theorem c3_resize_closed_amended_witness :
    resize 2 (close (new 1 : Queue Nat)).2 =
      (some Err.queueClosed, (close (new 1 : Queue Nat)).2) := by
  have h := c3_resize_closed_amended 2 (close (new 1 : Queue Nat)).2 (by decide)
  rw [h]
  decide

/-- A reachable state produced by filling a capacity-2 queue with 5 and 6 and
shrinking it to capacity 1: the occupancy 2 now exceeds the declared
capacity 1 (the backing array keeps 2 slots). -/
def overFull : Queue Nat :=
  (resize 1 (tryEnqueue 6 (tryEnqueue 5 (new 2 : Queue Nat)).2).2).2

/-- C4 counterexample: a reachable state (fill a capacity-2 queue, shrink to
capacity 1) whose occupancy exceeds the capacity reported by `Cap()`. -/
theorem c4_counterexample : Reachable overFull ∧ ¬ (overFull.len ≤ overFull.cap) :=
  ⟨Reachable.stepResize 1 _ (Reachable.stepTryEnq 6 _
      (Reachable.stepTryEnq 5 _ (Reachable.init 2 (by decide)))),
    by decide⟩

/-- C4 amended: in every reachable state the occupancy is bounded by the
length of the allocated backing array (which is itself at least the declared
capacity); the stricter bound `len <= Cap()` fails after a `Resize` below the
current occupancy. -/
theorem c4_occupancy_amended {T : Type} [Inhabited T] (q : Queue T)
    (h : Reachable q) : q.len ≤ q.items.length ∧ q.cap ≤ q.items.length :=
  ⟨(reachable_wf h).2.2.1, (reachable_wf h).2.1⟩

/-- C4 amended witness: the over-full shrunk state satisfies the amended
bounds. -/
theorem c4_occupancy_amended_witness :
    overFull.len ≤ overFull.items.length ∧ overFull.cap ≤ overFull.items.length :=
  c4_occupancy_amended overFull
    (Reachable.stepResize 1 _ (Reachable.stepTryEnq 6 _
      (Reachable.stepTryEnq 5 _ (Reachable.init 2 (by decide)))))

/-- C5 counterexample: one dequeue after the over-full shrink advances the
head cursor modulo the backing length 2, not modulo `Cap() = 1`: the head
lands on 1, outside `[0, Cap())`. -/
theorem c5_counterexample :
    Reachable (tryDequeue overFull).2 ∧
      ¬ ((tryDequeue overFull).2.head < (tryDequeue overFull).2.cap) :=
  ⟨Reachable.stepTryDeq _ (Reachable.stepResize 1 _ (Reachable.stepTryEnq 6 _
      (Reachable.stepTryEnq 5 _ (Reachable.init 2 (by decide))))),
    by decide⟩

/-- C5 amended: head and tail are advanced modulo the length of the allocated
backing array and always lie within it; they lie below `Cap()` only when the
backing array is no longer than the declared capacity (which a shrink below
occupancy violates). -/
theorem c5_cursors_amended {T : Type} [Inhabited T] (q : Queue T)
    (h : Reachable q) : q.head < q.items.length ∧ q.tail < q.items.length :=
  ⟨(reachable_wf h).2.2.2.1, (reachable_wf h).2.2.2.2.1⟩

/-- C5 amended witness: the cursors of the dequeued over-full state stay
within the backing array. -/
theorem c5_cursors_amended_witness :
    (tryDequeue overFull).2.head < (tryDequeue overFull).2.items.length ∧
      (tryDequeue overFull).2.tail < (tryDequeue overFull).2.items.length :=
  c5_cursors_amended (tryDequeue overFull).2
    (Reachable.stepTryDeq _ (Reachable.stepResize 1 _ (Reachable.stepTryEnq 6 _
      (Reachable.stepTryEnq 5 _ (Reachable.init 2 (by decide))))))

/-- C6: `Close` on an open queue succeeds without touching the stored items;
a second `Close` fails with `QueueClosed`; the items present at close time are
still returned, in their original order, by any mix of `TryDequeue`/`Dequeue`
calls; and once drained, both dequeue variants fail with `QueueClosed`. -/
theorem c6_close_drain {T : Type} [Inhabited T] (q : Queue T) (hWf : Wf q)
    (hcl : q.closed = false) (ds : List Bool) (hds : ds.length = q.len) :
    ∃ qc qf, close q = (none, qc) ∧ qc.items = q.items ∧
      (close qc).1 = some Err.queueClosed ∧
      runDeqs ds qc = some (toList q, qf) ∧
      tryDequeue qf = (Except.error Err.queueClosed, qf) ∧
      dequeue qf = some (Except.error Err.queueClosed, qf) := by
  have hc := close_open q hcl
  have hwfc : Wf ({ q with closed := true }) := hWf
  obtain ⟨qf, hrun, hwf', hlen', hcap', hclf', hN', htl'⟩ :=
    runDeqs_spec ds ({ q with closed := true }) hwfc (by
      show ds.length ≤ q.len
      omega)
  have hql : (toList ({ q with closed := true } : Queue T)).take ds.length = toList q := by
    show (toList q).take ds.length = toList q
    rw [List.take_of_length_le]
    rw [toList_len q hWf]
    omega
  have hqf0 : qf.len = 0 := by
    rw [hlen']
    show q.len - ds.length = 0
    omega
  have hqfc : qf.closed = true := hclf'
  refine ⟨{ q with closed := true }, qf, hc, rfl, ?_, ?_, ?_, ?_⟩
  · rw [close_closed _ rfl]
  · rw [hrun, hql]
  · rw [tryDequeue_empty qf hqf0, hqfc]
    simp
  · rw [dequeue_eq, if_neg (fun hAnd : qf.len = 0 ∧ qf.closed = false =>
      by rw [hqfc] at hAnd; cases hAnd.2)]
    rw [tryDequeue_empty qf hqf0, hqfc]
    simp

/-- C6 witness: close a capacity-2 queue holding 7 and 8, drain with a try
then a blocking dequeue. -/
theorem c6_close_drain_witness :
    ∃ qc qf, close (tryEnqueue 8 (tryEnqueue 7 (new 2 : Queue Nat)).2).2 = (none, qc) ∧
      qc.items = (tryEnqueue 8 (tryEnqueue 7 (new 2 : Queue Nat)).2).2.items ∧
      (close qc).1 = some Err.queueClosed ∧
      runDeqs [false, true] qc
        = some (toList (tryEnqueue 8 (tryEnqueue 7 (new 2 : Queue Nat)).2).2, qf) ∧
      tryDequeue qf = (Except.error Err.queueClosed, qf) ∧
      dequeue qf = some (Except.error Err.queueClosed, qf) :=
  c6_close_drain (tryEnqueue 8 (tryEnqueue 7 (new 2 : Queue Nat)).2).2 (by decide)
    (by decide) [false, true] (by decide)

/-- C7: a successful `Resize` below the current occupancy discards no item and
reports the requested capacity, and enqueues stay gated on `len >= cap`:
immediately after the shrink (and on every open queue at or above its declared
capacity) `TryEnqueue` fails with `QueueFull`, while on every open queue
strictly below its declared capacity it succeeds and grows the occupancy. -/
theorem c7_shrink_gating {T : Type} [Inhabited T] (q : Queue T) (hWf : Wf q)
    (hcl : q.closed = false) (n : Int) (hpos : 0 < n) (hlt : n < (q.len : Int)) :
    (resize n q).1 = none ∧
      toList (resize n q).2 = toList q ∧
      ((resize n q).2.cap : Int) = n ∧
      (∀ x : T, tryEnqueue x (resize n q).2 = (some Err.queueFull, (resize n q).2)) ∧
      (∀ (s : Queue T) (x : T), s.closed = false → s.cap ≤ s.len →
        tryEnqueue x s = (some Err.queueFull, s)) ∧
      (∀ (s : Queue T) (x : T), s.closed = false → s.len < s.cap →
        (tryEnqueue x s).1 = none ∧ (tryEnqueue x s).2.len = s.len + 1) := by
  obtain ⟨hnone, hwf, htl, hl, hcap, hclp⟩ := resize_ok n q hWf hcl hpos
  refine ⟨hnone, htl, by rw [hcap]; omega, ?_, ?_, ?_⟩
  · intro x
    apply tryEnqueue_full x (resize n q).2 (by rw [hclp]; exact hcl)
    rw [hcap, hl]
    omega
  · intro s x hscl hsfull
    exact tryEnqueue_full x s hscl hsfull
  · intro s x hscl hslt
    rw [tryEnqueue_go x s hscl hslt]
    exact ⟨rfl, by simp only [enqMut]⟩

/-- C7 witness: fill a capacity-2 queue with 5 and 6, shrink to capacity 1. -/
theorem c7_shrink_gating_witness :
    (resize 1 (tryEnqueue 6 (tryEnqueue 5 (new 2 : Queue Nat)).2).2).1 = none ∧
      toList (resize 1 (tryEnqueue 6 (tryEnqueue 5 (new 2 : Queue Nat)).2).2).2
        = toList (tryEnqueue 6 (tryEnqueue 5 (new 2 : Queue Nat)).2).2 ∧
      ((resize 1 (tryEnqueue 6 (tryEnqueue 5 (new 2 : Queue Nat)).2).2).2.cap : Int) = 1 ∧
      (∀ x : Nat, tryEnqueue x (resize 1 (tryEnqueue 6 (tryEnqueue 5 (new 2 : Queue Nat)).2).2).2
        = (some Err.queueFull, (resize 1 (tryEnqueue 6 (tryEnqueue 5 (new 2 : Queue Nat)).2).2).2)) ∧
      (∀ (s : Queue Nat) (x : Nat), s.closed = false → s.cap ≤ s.len →
        tryEnqueue x s = (some Err.queueFull, s)) ∧
      (∀ (s : Queue Nat) (x : Nat), s.closed = false → s.len < s.cap →
        (tryEnqueue x s).1 = none ∧ (tryEnqueue x s).2.len = s.len + 1) :=
  c7_shrink_gating (tryEnqueue 6 (tryEnqueue 5 (new 2 : Queue Nat)).2).2 (by decide)
    (by decide) 1 (by decide) (by decide)

/-- C8: `TryEnqueue` is a total function of the state (it never blocks); on a
closed queue it fails with `QueueClosed` for every item, on an open queue
whose occupancy equals its capacity it fails with `QueueFull`, and in both
failure cases the entire state (all fields) is returned unchanged. -/
theorem c8_tryEnqueue_errors {T : Type} (x : T) (q : Queue T) :
    (q.closed = true → tryEnqueue x q = (some Err.queueClosed, q)) ∧
      (q.closed = false → q.len = q.cap → tryEnqueue x q = (some Err.queueFull, q)) :=
  ⟨fun h => tryEnqueue_closed x q h,
    fun h1 h2 => tryEnqueue_full x q h1 (le_of_eq h2.symm)⟩

/-- C8 witness: a closed capacity-1 queue and a full open capacity-1 queue. -/
theorem c8_tryEnqueue_errors_witness :
    tryEnqueue 9 (close (new 1 : Queue Nat)).2
        = (some Err.queueClosed, (close (new 1 : Queue Nat)).2) ∧
      tryEnqueue 9 (tryEnqueue 5 (new 1 : Queue Nat)).2
        = (some Err.queueFull, (tryEnqueue 5 (new 1 : Queue Nat)).2) :=
  ⟨(c8_tryEnqueue_errors 9 (close (new 1 : Queue Nat)).2).1 (by decide),
    (c8_tryEnqueue_errors 9 (tryEnqueue 5 (new 1 : Queue Nat)).2).2 (by decide) (by decide)⟩

/-- C9: `TryDequeue` is a total function of the state (it never blocks); on a
queue with `len = 0` it fails — with `QueueClosed` when closed, `QueueEmpty`
when open — returns no item, and leaves the state unchanged. -/
theorem c9_tryDequeue_errors {T : Type} [Inhabited T] (q : Queue T) (h0 : q.len = 0) :
    tryDequeue q =
      (if q.closed then Except.error Err.queueClosed else Except.error Err.queueEmpty, q) :=
  tryDequeue_empty q h0

/-- C9 witness: an empty open queue and an empty closed queue. -/
theorem c9_tryDequeue_errors_witness :
    tryDequeue (new 1 : Queue Nat) = (Except.error Err.queueEmpty, new 1) ∧
      tryDequeue (close (new 1 : Queue Nat)).2
        = (Except.error Err.queueClosed, (close (new 1 : Queue Nat)).2) := by
  constructor
  · rw [c9_tryDequeue_errors (new 1 : Queue Nat) (by decide)]
    rfl
  · rw [c9_tryDequeue_errors (close (new 1 : Queue Nat)).2 (by decide)]
    rfl

/-- C10: implicit backing-array invariant: in every reachable state the
allocated backing array is nonempty, bounds the occupancy, contains both
cursors, and satisfies `tail = (head + len) % N` — so every backing-array
read and write of the enqueue/dequeue paths is in bounds, even when `N`
exceeds the declared capacity after a shrink below occupancy. -/
theorem c10_backing_invariant {T : Type} [Inhabited T] (q : Queue T)
    (h : Reachable q) :
    1 ≤ q.items.length ∧ q.len ≤ q.items.length ∧ q.head < q.items.length ∧
      q.tail < q.items.length ∧ q.tail = (q.head + q.len) % q.items.length := by
  obtain ⟨h1, h2, h3, h4, h5, h6⟩ := reachable_wf h
  exact ⟨by omega, h3, h4, h5, h6⟩

/-- C10 witness: the invariant holds for the over-full shrunk state, whose
backing array (2 slots) exceeds the declared capacity 1. -/
theorem c10_backing_invariant_witness :
    1 ≤ overFull.items.length ∧ overFull.len ≤ overFull.items.length ∧
      overFull.head < overFull.items.length ∧
      overFull.tail < overFull.items.length ∧
      overFull.tail = (overFull.head + overFull.len) % overFull.items.length :=
  c10_backing_invariant overFull
    (Reachable.stepResize 1 _ (Reachable.stepTryEnq 6 _
      (Reachable.stepTryEnq 5 _ (Reachable.init 2 (by decide)))))

end Fifo
